import Mathlib

/-!
Verification development for the EDA pipeline of `src/VISTA/app.py`
(the appended `project da.py` script, lines 57-216).

The script loads a movie table (falling back to a hard-coded 5-row
dummy DataFrame when `tmdb_movies.csv` is absent), then runs a fixed
sequence of pandas/numpy/seaborn computations: shape inspection,
missing-value report, descriptive statistics and box-plot outlier
fencing, histograms, genre value counts, a Pearson correlation matrix,
and a final block of printed insights.

The shallow embedding below models the DataFrame as an association
list of columns of optional cells, and each pandas/numpy operation the
script invokes by its exact documented semantics on that data
(missing cells are `none`; pandas NaN results are `Option.none`;
floats are embedded as `ℚ`, with `ℝ` used only where a square root or
logarithm is genuinely real-valued).
-/

namespace EDA

/-- A cell value of the movie table: numeric, string, or boolean. -/
inductive Value where
  | num (q : ℚ)
  | str (s : String)
  | boolean (b : Bool)
deriving DecidableEq, Repr

/-- A cell of a column; `none` models a missing value (pandas NaN / null). -/
abbrev Cell := Option Value

/-- A pandas DataFrame: ordered association of column names to
equal-length cell lists. -/
abbrev Dataset := List (String × List Cell)

/-- Shorthand for a present numeric cell. -/
def numQ (q : ℚ) : Cell := some (Value.num q)

/-- Shorthand for a present string cell. -/
def strV (s : String) : Cell := some (Value.str s)

/-- Shorthand for a present boolean cell. -/
def boolV (b : Bool) : Cell := some (Value.boolean b)

/-- The dummy DataFrame built by `app.py` lines 80-91 when
`tmdb_movies.csv` is not found: 5 movies, 9 columns. -/
def dummyDataset : Dataset :=
  [ ("title", [strV "Avatar", strV "Titanic", strV "Avengers", strV "Joker", strV "Inception"]),
    ("release_date", [strV "2009-12-18", strV "1997-12-19", strV "2012-05-04",
                      strV "2019-10-04", strV "2010-07-16"]),
    ("budget", [numQ 237000000, numQ 200000000, numQ 220000000, numQ 55000000, numQ 160000000]),
    ("revenue", [numQ 2787965087, numQ 2257844554, numQ 1518815515,
                 numQ 1074219000, numQ 825532764]),
    ("runtime", [numQ 162, numQ 194, numQ 143, numQ 122, numQ 148]),
    ("vote_average", [numQ (36/5), numQ (15/2), numQ (39/5), numQ (42/5), numQ (44/5)]),
    ("genre", [strV "Action", strV "Drama", strV "Action", strV "Drama", strV "Sci-Fi"]),
    ("director", [strV "James Cameron", strV "James Cameron", strV "Joss Whedon",
                  strV "Todd Phillips", strV "Christopher Nolan"]),
    ("is_english", [boolV true, boolV true, boolV true, boolV true, boolV true]) ]

/-- Number of columns (`df.shape` second component). -/
def nCols (df : Dataset) : ℕ := df.length

/-- Number of rows (`len(df)`, `df.shape` first component): the common
length of the columns, read off the first column. -/
def nRows (df : Dataset) : ℕ := (df.head?.map (fun c => c.2.length)).getD 0

/-- Column access `df[name]`, as pandas `__getitem__`: `none` when the
column is absent (pandas raises `KeyError`). -/
def getCol (df : Dataset) (name : String) : Option (List Cell) := df.lookup name

/-- How the file-loading at `app.py` lines 74-91 can find its source:
the file is absent, present but unparsable, or parses to a DataFrame. -/
inductive Source where
  | missing
  | unparsable
  | parsed (df : Dataset)

/-- The error that escapes the loading block: `pd.read_csv` exceptions
other than `FileNotFoundError` are not caught. -/
inductive LoadError where
  | parseError
deriving DecidableEq, Repr

/-- The `try/except FileNotFoundError` block at `app.py` lines 74-91:
a missing file is replaced by the dummy DataFrame; any other
`read_csv` failure propagates; a parsed file is used as-is. -/
def loadDataset : Source → Except LoadError Dataset
  | Source.missing => Except.ok dummyDataset
  | Source.unparsable => Except.error LoadError.parseError
  | Source.parsed df => Except.ok df

/-- Errors that abort the EDA script after loading: pandas `KeyError`
on a column selection. -/
inductive PipelineError where
  | keyError (col : String)
deriving DecidableEq, Repr

/-- Multi-column selection `df[[n1, n2, ...]]`: pandas raises
`KeyError` at the first absent name. -/
def selectCols (df : Dataset) (names : List String) :
    Except PipelineError (List (String × List Cell)) :=
  names.mapM (fun n =>
    match getCol df n with
    | some c => Except.ok (n, c)
    | none => Except.error (PipelineError.keyError n))

/-- Single-column access `df[name]` as the script uses it, surfacing
pandas `KeyError` when absent. -/
def expectCol (df : Dataset) (name : String) : Except PipelineError (List Cell) :=
  match getCol df name with
  | some c => Except.ok c
  | none => Except.error (PipelineError.keyError name)

/-- The numeric columns the script selects at lines 135 and 189. -/
def numericCols : List String := ["budget", "revenue", "runtime", "vote_average"]

/-- `df.isnull().sum()` for one column: number of missing cells. -/
def countMissing (cells : List Cell) : ℕ := (cells.filter Option.isNone).length

/-- `missing_values / len(df) * 100` (line 124): pandas float division,
which yields NaN (`none`) when `len(df) = 0` (0/0). -/
def missingPct (cnt n : ℕ) : Option ℚ :=
  if n = 0 then none else some ((cnt : ℚ) / (n : ℚ) * 100)

/-- One row of the missing-value report: column name, missing count,
missing percentage. -/
abbrev MissEntry := String × ℕ × Option ℚ

/-- Insert into a list sorted descending by `key`, keeping ties stable
(the inserted element goes before the first element of no larger key). -/
def insertDescBy {α : Type} (key : α → ℕ) (e : α) : List α → List α
  | [] => [e]
  | b :: t => if key b ≤ key e then e :: b :: t else b :: insertDescBy key e t

/-- Stable insertion sort, descending by `key`: the semantics of
`sort_values(ascending=False)` (line 129) and of the descending order
of `value_counts` (line 173). -/
def sortDescBy {α : Type} (key : α → ℕ) : List α → List α
  | [] => []
  | e :: t => insertDescBy key e (sortDescBy key t)

/-- The missing-value report of `app.py` lines 123-129: per column the
missing count and percentage, sorted by missing count descending. -/
def missingReport (df : Dataset) : List MissEntry :=
  sortDescBy (fun e => e.2.1)
    (df.map (fun c => (c.1, countMissing c.2, missingPct (countMissing c.2) (nRows df))))

/-- Occurrence counts of the present values of a column, in first-seen
order (the accumulation underlying pandas `value_counts`). -/
def tally (vs : List Value) : List (Value × ℕ) :=
  vs.foldl (fun acc v =>
    if acc.any (fun p => p.1 == v) then
      acc.map (fun p => if p.1 == v then (p.1, p.2 + 1) else p)
    else acc ++ [(v, 1)]) []

/-- `df[col].value_counts()` (line 173): distinct present values with
their counts, missing cells dropped, sorted descending by count with
ties kept in first-seen order. -/
def valueCounts (cells : List Cell) : List (Value × ℕ) :=
  sortDescBy (fun p => p.2) (tally (cells.filterMap id))

/-- Numeric view of a cell: the rational of a numeric cell, `none` for
a missing cell or a non-numeric cell. -/
def toNum : Cell → Option ℚ
  | some (Value.num q) => some q
  | _ => none

/-- Numeric view of a column. -/
def numCol (cells : List Cell) : List (Option ℚ) := cells.map toNum

/-- The numeric view of a named column of a DataFrame. -/
def colNums (df : Dataset) (name : String) : List (Option ℚ) :=
  numCol ((getCol df name).getD [])

/-- Mean of a list of rationals (division by the length). -/
def qmean (l : List ℚ) : ℚ := l.sum / (l.length : ℚ)

/-- The jointly-present value pairs of two aligned columns: the rows
where both cells hold a number. -/
def completePairs (x y : List (Option ℚ)) : List (ℚ × ℚ) :=
  (x.zip y).filterMap (fun p => p.1.bind (fun a => p.2.map (fun b => (a, b))))

/-- The sufficient statistics pandas `DataFrame.corr` accumulates for
one pair of columns: number of jointly-present rows, and the centred
cross- and self-products over those rows. -/
structure CorrStats where
  n : ℕ
  sxy : ℚ
  sxx : ℚ
  syy : ℚ
deriving DecidableEq, Repr

/-- The sufficient statistics of `numerical_df.corr()` (line 190) for
one pair of columns, computed over the jointly-present rows only. -/
def corrStats (x y : List (Option ℚ)) : CorrStats :=
  let ps := completePairs x y
  let mx := qmean (ps.map Prod.fst)
  let my := qmean (ps.map Prod.snd)
  { n := ps.length
    sxy := (ps.map (fun p => (p.1 - mx) * (p.2 - my))).sum
    sxx := (ps.map (fun p => (p.1 - mx) ^ 2)).sum
    syy := (ps.map (fun p => (p.2 - my) ^ 2)).sum }

/-- The correlation value pandas derives from the sufficient
statistics: NaN (`none`) for fewer than 2 jointly-present rows or zero
variance in either column, else the Pearson quotient. -/
noncomputable def corrOfStats (s : CorrStats) : Option ℝ :=
  if s.n < 2 ∨ s.sxx = 0 ∨ s.syy = 0 then none
  else some ((s.sxy : ℝ) / Real.sqrt ((s.sxx : ℝ) * (s.syy : ℝ)))

/-- One entry of `numerical_df.corr()` for two aligned columns. -/
noncomputable def corrEntry (x y : List (Option ℚ)) : Option ℝ :=
  corrOfStats (corrStats x y)

/-- The sum of squared deviations of a column about its mean, over its
present values; zero exactly when the column has fewer than two
present values or zero variance. -/
def ssd (x : List (Option ℚ)) : ℚ := (corrStats x x).sxx

/-- The sufficient statistics of the full correlation matrix of
line 190, over every ordered pair of the selected columns. -/
def corrMatrixStats (nd : List (String × List Cell)) :
    List ((String × String) × CorrStats) :=
  nd.flatMap (fun ci => nd.map (fun cj => ((ci.1, cj.1), corrStats (numCol ci.2) (numCol cj.2))))

/-- The correlation-matrix entry for two named columns of the selected
numeric frame. -/
noncomputable def corrMatrixEntry (nd : List (String × List Cell)) (i j : String) :
    Option ℝ :=
  corrEntry (numCol ((nd.lookup i).getD [])) (numCol ((nd.lookup j).getD []))

/-- The final insight block of `app.py` lines 211-215: five print
statements, represented by rule number 1-5. They are executed
unconditionally whenever control reaches step 6. -/
def finalInsights : List ℕ := [1, 2, 3, 4, 5]

/-- The artifacts the script's run produces (the textual report bundle
of the spec), with correlation entries kept as their computable
sufficient statistics. -/
structure Report where
  shape : ℕ × ℕ
  missing : List MissEntry
  genreCounts : List (Value × ℕ)
  corr : List ((String × String) × CorrStats)
  insights : List ℕ
deriving DecidableEq, Repr

/-- The EDA run of `app.py` lines 93-216 after loading, in script
order: shape (line 108), missing report (lines 123-131), the
column selections of the describe/boxplot step (lines 135, 139), the
histogram accesses (lines 155, 160, 165), genre value counts
(line 173), the numeric selection and correlation matrix
(lines 189-190), and the unconditional insight block (lines 211-215).
Each pandas column access that can raise `KeyError` is sequenced in
the `Except` monad at the point the script performs it. -/
def runEDA (df : Dataset) : Except PipelineError Report := do
  let shape := (nRows df, nCols df)
  let miss := missingReport df
  let _ ← selectCols df numericCols
  let _ ← selectCols df ["budget", "revenue", "runtime"]
  let _ ← expectCol df "runtime"
  let _ ← expectCol df "vote_average"
  let _ ← expectCol df "budget"
  let genreCells ← expectCol df "genre"
  let nd ← selectCols df numericCols
  pure { shape := shape
         missing := miss
         genreCounts := valueCounts genreCells
         corr := corrMatrixStats nd
         insights := finalInsights }

/-- A well-formed 4-row DataFrame whose budget and revenue columns
have exactly zero Pearson correlation. -/
def zeroCorrDs : Dataset :=
  [ ("budget", [numQ 1, numQ 1, numQ 2, numQ 2]),
    ("revenue", [numQ 1, numQ 2, numQ 1, numQ 2]),
    ("runtime", [numQ 100, numQ 110, numQ 120, numQ 130]),
    ("vote_average", [numQ 5, numQ 6, numQ 7, numQ 8]),
    ("genre", [strV "A", strV "B", strV "A", strV "B"]) ]

/-- A DataFrame lacking the expected `budget` column. -/
def noBudgetDs : Dataset :=
  [ ("title", [strV "A"]), ("revenue", [numQ 1]) ]

/-- A DataFrame with one column and zero rows. -/
def emptyRowsDs : Dataset := [("title", ([] : List Cell))]

/-- The rule numbers of the insight lines the run actually prints: all
five when the script reaches step 6, none when it aborts earlier. -/
def emittedInsights (df : Dataset) : List ℕ :=
  ((runEDA df).toOption.map Report.insights).getD []

/-- Specification-side definition of the correlation entry, following
the spec's words: the Pearson product-moment coefficient over the
jointly-present value pairs, with a pair set of fewer than 2 rows or
zero variance in either coordinate yielding an undefined
(not-a-number) entry. Used to compare the source-side `corrEntry`
against the spec's contract. -/
noncomputable def pearsonSpec (ps : List (ℚ × ℚ)) : Option ℝ :=
  let xs := ps.map Prod.fst
  let ys := ps.map Prod.snd
  let sxx : ℚ := (xs.map (fun a => (a - qmean xs) ^ 2)).sum
  let syy : ℚ := (ys.map (fun b => (b - qmean ys) ^ 2)).sum
  if ps.length < 2 ∨ sxx = 0 ∨ syy = 0 then none
  else some
    (((ps.map (fun p => (p.1 - qmean xs) * (p.2 - qmean ys))).sum : ℝ) /
      Real.sqrt ((sxx : ℝ) * (syy : ℝ)))

/-- A two-column numeric frame used to instantiate the correlation
matrix theorems. -/
def twoColNd : List (String × List Cell) :=
  [("a", [numQ 1, numQ 2]), ("b", [numQ 3, numQ 5])]

/-- Insert into an ascending-sorted list of rationals. -/
def insertAsc (a : ℚ) : List ℚ → List ℚ
  | [] => [a]
  | b :: t => if a ≤ b then a :: b :: t else b :: insertAsc a t

/-- Insertion sort ascending: the sorting step inside `np.percentile`. -/
def sortQ : List ℚ → List ℚ
  | [] => []
  | a :: t => insertAsc a (sortQ t)

/-- Linear interpolation of a sorted sequence at a fractional
position: between the order statistics at ranks floor(pos) and
floor(pos) + 1, with the latter defaulting to the former at the upper
boundary. -/
def interpAt (s : List ℚ) (pos : ℚ) : ℚ :=
  s.getD (⌊pos⌋).toNat 0 +
    (pos - ((⌊pos⌋).toNat : ℚ)) *
      (s.getD ((⌊pos⌋).toNat + 1) (s.getD (⌊pos⌋).toNat 0) - s.getD (⌊pos⌋).toNat 0)

/-- `np.percentile(l, p*100)` with the default linear interpolation
(the method `df.describe` and matplotlib's box-plot statistics use):
sort, take the fractional position p * (n - 1), and interpolate
linearly between the two adjacent order statistics. -/
def percentileLin (l : List ℚ) (p : ℚ) : ℚ :=
  interpAt (sortQ l) (p * (((sortQ l).length : ℚ) - 1))

/-- First quartile (25th percentile). -/
def q1Of (l : List ℚ) : ℚ := percentileLin l (1/4)

/-- Third quartile (75th percentile). -/
def q3Of (l : List ℚ) : ℚ := percentileLin l (3/4)

/-- Interquartile range. -/
def iqrOf (l : List ℚ) : ℚ := q3Of l - q1Of l

/-- Tukey lower fence Q1 - 1.5 * IQR (matplotlib `whis=1.5`). -/
def loFence (l : List ℚ) : ℚ := q1Of l - 3/2 * iqrOf l

/-- Tukey upper fence Q3 + 1.5 * IQR. -/
def hiFence (l : List ℚ) : ℚ := q3Of l + 3/2 * iqrOf l

/-- The lower whisker of matplotlib's `boxplot_stats`: the smallest
datum at or above the lower fence, or Q1 when no datum qualifies. -/
def whiskLo (l : List ℚ) : ℚ :=
  match l.filter (fun v => decide (loFence l ≤ v)) with
  | [] => q1Of l
  | v :: t => t.foldl min v

/-- The upper whisker of matplotlib's `boxplot_stats`: the largest
datum at or below the upper fence, or Q3 when no datum qualifies. -/
def whiskHi (l : List ℚ) : ℚ :=
  match l.filter (fun v => decide (v ≤ hiFence l)) with
  | [] => q3Of l
  | v :: t => t.foldl max v

/-- matplotlib marks a datum as a flier (outlier) iff it lies outside
the whiskers; this is what the box plots at line 139 draw. -/
def isFlier (l : List ℚ) (v : ℚ) : Bool := decide (v < whiskLo l ∨ whiskHi l < v)

/-- The row indices whose value the box plot flags as an outlier. -/
def outlierIndices (l : List ℚ) : List ℕ :=
  (List.range l.length).filter (fun i => isFlier l (l.getD i 0))

/-- The present numeric values of a column, in row order (what
`sns.histplot` bins after dropping missing values). -/
def presentNums (cells : List Cell) : List ℚ := (numCol cells).filterMap id

/-- Minimum of a nonempty list given as head and tail. -/
def minQ (v : ℚ) (t : List ℚ) : ℚ := t.foldl min v

/-- Maximum of a nonempty list given as head and tail. -/
def maxQ (v : ℚ) (t : List ℚ) : ℚ := t.foldl max v

/-- numpy's `_get_outer_edges`: the histogram range is [min, max],
expanded to [min - 0.5, max + 0.5] when min = max, and (0, 1) for an
empty array. -/
def histBounds (vs : List ℚ) : ℚ × ℚ :=
  match vs with
  | [] => (0, 1)
  | v :: t =>
    let lo := minQ v t
    let hi := maxQ v t
    if lo = hi then (lo - 1/2, hi + 1/2) else (lo, hi)

/-- numpy's bin assignment over k equal-width bins on [lo, hi]: the
floor of the scaled offset, with the final closed bin capturing
v = hi (indices clamped to k - 1). -/
def binOf (lo hi : ℚ) (k : ℕ) (v : ℚ) : ℕ :=
  min (k - 1) (⌊(v - lo) * (k : ℚ) / (hi - lo)⌋).toNat

/-- The k + 1 equally spaced bin edges on [lo, hi]. -/
def histEdges (lo hi : ℚ) (k : ℕ) : List ℚ :=
  (List.range (k + 1)).map (fun i : ℕ => lo + (hi - lo) * (i : ℚ) / (k : ℚ))

/-- The histogram bin counts of `sns.histplot(..., bins=k)`: per bin,
the number of values it receives. -/
def histCounts (vs : List ℚ) (k : ℕ) : List ℕ :=
  let b := histBounds vs
  (List.range k).map (fun i => (vs.filter (fun v => binOf b.1 b.2 k v == i)).length)

/-- The histogram of a column: bin counts over its present values. -/
def histogram (cells : List Cell) (k : ℕ) : List ℕ := histCounts (presentNums cells) k

/-- `np.log1p` on an embedded float. -/
noncomputable def log1p (q : ℚ) : ℝ := Real.log (1 + (q : ℝ))

/-- The series the three `sns.histplot` calls of step 4 receive, in
script order (lines 155, 160, 165): raw runtime, raw vote_average,
and `np.log1p(df['budget'])`. -/
noncomputable def step4HistInputs (df : Dataset) : List (String × List ℝ) :=
  [ ("runtime", (presentNums ((getCol df "runtime").getD [])).map (fun q : ℚ => (q : ℝ))),
    ("vote_average", (presentNums ((getCol df "vote_average").getD [])).map (fun q : ℚ => (q : ℝ))),
    ("budget", (presentNums ((getCol df "budget").getD [])).map log1p) ]

/-- Minimum of a list of values (0 for the empty list, matching
numpy's unused default). -/
def minOf (vs : List ℚ) : ℚ :=
  match vs with
  | [] => 0
  | v :: t => minQ v t

/-- Maximum of a list of values (0 for the empty list). -/
def maxOf (vs : List ℚ) : ℚ :=
  match vs with
  | [] => 0
  | v :: t => maxQ v t


/-- Inversion for a successful `Except` bind. -/
theorem except_bind_ok {ε α β : Type} {x : Except ε α} {f : α → Except ε β} {b : β}
    (h : (x >>= f) = Except.ok b) : ∃ a, x = Except.ok a ∧ f a = Except.ok b := by
  cases x with
  | error e => simp only [Bind.bind, Except.bind] at h; exact Except.noConfusion h
  | ok a => exact ⟨a, rfl, by simpa only [Bind.bind, Except.bind] using h⟩

/-- On any run that completes, the produced insight list is exactly the
five fixed rules, independent of every computed statistic. -/
theorem insights_of_ok (df : Dataset) (r : Report) (h : runEDA df = Except.ok r) :
    r.insights = finalInsights := by
  unfold runEDA at h
  obtain ⟨a1, h1, h⟩ := except_bind_ok h
  obtain ⟨a2, h2, h⟩ := except_bind_ok h
  obtain ⟨a3, h3, h⟩ := except_bind_ok h
  obtain ⟨a4, h4, h⟩ := except_bind_ok h
  obtain ⟨a5, h5, h⟩ := except_bind_ok h
  obtain ⟨a6, h6, h⟩ := except_bind_ok h
  obtain ⟨a7, h7, h⟩ := except_bind_ok h
  simp only [pure, Except.pure, Except.ok.injEq] at h
  subst h
  rfl

/-- C1 (counterexample): on `zeroCorrDs` the Pearson correlation of
budget and revenue is exactly 0, whose absolute value is below the
0.7 threshold, yet insight rule 1 is still emitted — refuting the
claimed "only if" direction. -/
theorem insight_rule1_threshold_cex :
    corrEntry (colNums zeroCorrDs "budget") (colNums zeroCorrDs "revenue") = some 0 ∧
    |(0 : ℝ)| < 7 / 10 ∧
    1 ∈ emittedInsights zeroCorrDs := by
  refine ⟨?_, by norm_num, by decide⟩
  have hs : corrStats (colNums zeroCorrDs "budget") (colNums zeroCorrDs "revenue") =
      ⟨4, 0, 1, 1⟩ := by
    show corrStats [some 1, some 1, some 2, some 2] [some 1, some 2, some 1, some 2] =
      ⟨4, 0, 1, 1⟩
    have hps : completePairs [some 1, some 1, some 2, some 2] [some 1, some 2, some 1, some 2] =
        [((1 : ℚ), (1 : ℚ)), (1, 2), (2, 1), (2, 2)] := by
      simp [completePairs]
    simp only [corrStats, hps, qmean]
    norm_num
  unfold corrEntry
  rw [hs]
  unfold corrOfStats
  norm_num

/-- C1 (amended): the final insight block is a fixed sequence of print
statements; insight rule 1 is emitted on every run that completes,
regardless of the computed budget-revenue correlation. -/
theorem insight_rule1_unconditional (df : Dataset)
    (h : ∃ r, runEDA df = Except.ok r) : 1 ∈ emittedInsights df := by
  obtain ⟨r, hr⟩ := h
  have hi := insights_of_ok df r hr
  unfold emittedInsights
  rw [hr]
  show 1 ∈ r.insights
  rw [hi]
  decide

/-- C1 (witness): the amended theorem applied to the dummy dataset. -/
theorem insight_rule1_unconditional_witness : 1 ∈ emittedInsights dummyDataset :=
  insight_rule1_unconditional dummyDataset ⟨_, rfl⟩

/-- C2 (counterexample): the `except` clause at line 77 catches only
`FileNotFoundError`; a present but unparsable source propagates the
parse error instead of substituting the synthetic dataset. -/
theorem loader_unparsable_cex :
    loadDataset Source.unparsable = Except.error LoadError.parseError := rfl

/-- C2 (amended): when the source file is absent the loader
substitutes the built-in 5-row dummy dataset and the whole pipeline
then runs to completion on it; only the unparsable case aborts. -/
theorem loader_missing_fallback_completes :
    loadDataset Source.missing = Except.ok dummyDataset ∧
    (runEDA dummyDataset).toOption.isSome = true :=
  ⟨rfl, by decide⟩

/-- C3 (counterexample): on a dataset lacking the `budget` column the
run aborts with a pandas `KeyError` at the first numeric column
selection (line 135) instead of skipping the affected statistics. -/
theorem skip_absent_column_cex :
    runEDA noBudgetDs = Except.error (PipelineError.keyError "budget") := rfl

/-- C3 (amended): the script selects the expected analytical columns
unconditionally, so the absence of the `budget` column is fatal: every
dataset without it aborts with `KeyError "budget"` at line 135. -/
theorem missing_column_fatal (df : Dataset) (h : getCol df "budget" = none) :
    runEDA df = Except.error (PipelineError.keyError "budget") := by
  have hsel : selectCols df numericCols = Except.error (PipelineError.keyError "budget") := by
    simp [selectCols, numericCols, List.mapM, List.mapM.loop, h, Bind.bind, Except.bind]
  unfold runEDA
  simp [hsel, Bind.bind, Except.bind]

/-- C3 (witness): the amended theorem applied to a concrete dataset
without a budget column. -/
theorem missing_column_fatal_witness :
    getCol noBudgetDs "budget" = none ∧
    runEDA noBudgetDs = Except.error (PipelineError.keyError "budget") :=
  ⟨rfl, missing_column_fatal noBudgetDs rfl⟩

/-- Reversing the argument order of the pairing reverses each
jointly-present pair. -/
theorem completePairs_swap (x y : List (Option ℚ)) :
    completePairs y x = (completePairs x y).map Prod.swap := by
  unfold completePairs
  rw [← List.zip_swap x y, List.filterMap_map, List.map_filterMap]
  congr 1
  funext p
  obtain ⟨a, b⟩ := p
  cases a <;> cases b <;> rfl

/-- The sufficient statistics of the transposed pair: same count and
cross-product, self-products exchanged. -/
theorem corrStats_swap (x y : List (Option ℚ)) :
    corrStats y x =
      ⟨(corrStats x y).n, (corrStats x y).sxy, (corrStats x y).syy, (corrStats x y).sxx⟩ := by
  unfold corrStats
  rw [completePairs_swap]
  simp only [List.map_map, List.length_map]
  have hfst : (Prod.fst ∘ Prod.swap : ℚ × ℚ → ℚ) = Prod.snd := rfl
  have hsnd : (Prod.snd ∘ Prod.swap : ℚ × ℚ → ℚ) = Prod.fst := rfl
  rw [hfst, hsnd]
  congr 1
  exact congrArg List.sum (List.map_congr_left (fun p _ => mul_comm _ _))

/-- Exchanging the two self-products does not change the derived
correlation value. -/
theorem corrOfStats_transpose (s : CorrStats) :
    corrOfStats ⟨s.n, s.sxy, s.syy, s.sxx⟩ = corrOfStats s := by
  unfold corrOfStats
  have hiff : (s.n < 2 ∨ s.syy = 0 ∨ s.sxx = 0) ↔ (s.n < 2 ∨ s.sxx = 0 ∨ s.syy = 0) := by tauto
  simp only []
  rw [if_congr hiff rfl rfl, mul_comm ((s.syy : ℝ)) ((s.sxx : ℝ))]

/-- A correlation entry is symmetric in its two columns. -/
theorem corrEntry_symm (x y : List (Option ℚ)) : corrEntry x y = corrEntry y x := by
  unfold corrEntry
  rw [corrStats_swap x y, corrOfStats_transpose]

/-- Pairing a column with itself keeps exactly its present values,
duplicated. -/
theorem completePairs_self (x : List (Option ℚ)) :
    completePairs x x = (x.filterMap id).map (fun a => (a, a)) := by
  induction x with
  | nil => rfl
  | cons a t ih =>
    cases a with
    | none => simpa [completePairs, List.zip_cons_cons] using ih
    | some q => simpa [completePairs, List.zip_cons_cons] using ih

/-- On the diagonal, all three centred products coincide and the count
is the number of present values. -/
theorem corrStats_self (x : List (Option ℚ)) :
    corrStats x x =
      ⟨(x.filterMap id).length, (corrStats x x).sxx, (corrStats x x).sxx,
        (corrStats x x).sxx⟩ := by
  unfold corrStats
  rw [completePairs_self]
  simp only [List.map_map, List.length_map]
  have hfst : ((Prod.fst : ℚ × ℚ → ℚ) ∘ (fun a => (a, a))) = id := rfl
  have hsnd : ((Prod.snd : ℚ × ℚ → ℚ) ∘ (fun a => (a, a))) = id := rfl
  rw [hfst, hsnd]
  congr 1
  exact congrArg List.sum (List.map_congr_left (fun p _ => by show _ * _ = _ ^ 2; ring))

/-- The centred self-product is a sum of squares, hence nonnegative. -/
theorem sxx_nonneg (x y : List (Option ℚ)) : 0 ≤ (corrStats x y).sxx := by
  unfold corrStats
  exact List.sum_nonneg (fun a ha => by
    obtain ⟨p, _, rfl⟩ := List.mem_map.1 ha
    positivity)

/-- With at most one jointly-present row the centred self-product is
zero. -/
theorem sxx_eq_zero_of_small (x y : List (Option ℚ)) (h : (corrStats x y).n ≤ 1) :
    (corrStats x y).sxx = 0 := by
  unfold corrStats at h ⊢
  simp only [] at h ⊢
  match hps : completePairs x y with
  | [] => simp
  | [p] => simp [qmean]
  | p :: q :: t => rw [hps] at h; simp at h

/-- A column with nonzero sum of squared deviations has diagonal
correlation exactly 1. -/
theorem corrEntry_self_diag (x : List (Option ℚ)) (h : ssd x ≠ 0) :
    corrEntry x x = some 1 := by
  have hself := corrStats_self x
  have hn : ¬ (corrStats x x).n < 2 := by
    intro hlt
    exact h (sxx_eq_zero_of_small x x (Nat.lt_succ_iff.1 hlt))
  have hsx : (corrStats x x).sxx ≠ 0 := h
  unfold corrEntry corrOfStats
  rw [hself]
  simp only []
  rw [if_neg]
  · have h0 : (0:ℝ) ≤ ((corrStats x x).sxx : ℝ) := by exact_mod_cast sxx_nonneg x x
    rw [Real.sqrt_mul_self h0, div_self (by exact_mod_cast hsx)]
  · push_neg
    refine ⟨?_, hsx, hsx⟩
    have hl : (corrStats x x).n = (x.filterMap id).length := by rw [hself]
    omega

/-- C6: the computed correlation matrix is symmetric — the entry for
columns (i, j) equals the entry for (j, i) — and the diagonal entry of
every column with nonzero variance (nonzero sum of squared deviations)
is exactly 1. -/
theorem corr_matrix_symmetric_diag :
    (∀ (nd : List (String × List Cell)) (i j : String),
      corrMatrixEntry nd i j = corrMatrixEntry nd j i) ∧
    (∀ (nd : List (String × List Cell)) (i : String),
      ssd (numCol ((nd.lookup i).getD [])) ≠ 0 → corrMatrixEntry nd i i = some 1) := by
  constructor
  · intro nd i j
    unfold corrMatrixEntry
    exact corrEntry_symm _ _
  · intro nd i h
    unfold corrMatrixEntry
    exact corrEntry_self_diag _ h

/-- C6 (witness): the symmetry and diagonal statements instantiated on
a concrete two-column numeric frame. -/
theorem corr_matrix_symmetric_diag_witness :
    corrMatrixEntry twoColNd "a" "b" = corrMatrixEntry twoColNd "b" "a" ∧
    corrMatrixEntry twoColNd "a" "a" = some 1 := by
  refine ⟨corr_matrix_symmetric_diag.1 twoColNd "a" "b",
    corr_matrix_symmetric_diag.2 twoColNd "a" ?_⟩
  have hv : ssd (numCol ((twoColNd.lookup "a").getD [])) = 1/2 := by
    show ssd [some 1, some 2] = 1/2
    unfold ssd
    have hps : completePairs [some 1, some 2] [some 1, some 2] =
        [((1 : ℚ), (1 : ℚ)), (2, 2)] := by
      simp [completePairs]
    simp only [corrStats, hps, qmean]
    norm_num
  rw [hv]
  norm_num

/-- C7: every correlation entry equals the spec's Pearson coefficient
computed over exactly the jointly-present rows of the two columns
(pairwise-complete), and any pair with fewer than 2 jointly-present
rows or zero variance in either column yields the undefined entry
`none`, not a failure. -/
theorem corr_pairwise_complete (x y : List (Option ℚ)) :
    corrEntry x y = pearsonSpec (completePairs x y) ∧
    (((completePairs x y).length < 2 ∨ (corrStats x y).sxx = 0 ∨ (corrStats x y).syy = 0) →
      corrEntry x y = none) := by
  constructor
  · unfold corrEntry corrOfStats corrStats pearsonSpec
    simp only [List.map_map]
    rfl
  · intro h
    unfold corrEntry corrOfStats
    rw [if_pos]
    exact h

/-- C7 (witness): the theorem instantiated on columns with missing
cells, one of which is constant over the jointly-present rows, so the
entry is the undefined value. -/
theorem corr_pairwise_complete_witness :
    corrEntry [some 1, none, some 1, some 1] [some 2, some 5, none, some 6] =
      pearsonSpec (completePairs [some 1, none, some 1, some 1]
        [some 2, some 5, none, some 6]) ∧
    corrEntry [some 1, none, some 1, some 1] [some 2, some 5, none, some 6] = none := by
  refine ⟨(corr_pairwise_complete _ _).1, (corr_pairwise_complete _ _).2 (Or.inr (Or.inl ?_))⟩
  have hps : completePairs [some 1, none, some 1, some 1] [some 2, some 5, none, some 6] =
      [((1 : ℚ), (2 : ℚ)), (1, 6)] := by
    simp [completePairs]
  simp only [corrStats, hps, qmean]
  norm_num

/-- Membership in a descending insertion is membership in the inserted
element or the list. -/
theorem mem_insertDescBy {α : Type} (key : α → ℕ) (e a : α) (l : List α) :
    a ∈ insertDescBy key e l ↔ a = e ∨ a ∈ l := by
  induction l with
  | nil => simp [insertDescBy]
  | cons b t ih =>
    unfold insertDescBy
    by_cases hc : key b ≤ key e
    · simp [hc]
    · simp only [hc, if_false, List.mem_cons, ih]
      tauto

/-- Inserting into a descending-sorted list keeps it descending. -/
theorem pairwise_insertDescBy {α : Type} (key : α → ℕ) (e : α) (l : List α)
    (h : l.Pairwise (fun a b => key b ≤ key a)) :
    (insertDescBy key e l).Pairwise (fun a b => key b ≤ key a) := by
  induction l with
  | nil => simp [insertDescBy]
  | cons b t ih =>
    unfold insertDescBy
    rcases List.pairwise_cons.1 h with ⟨hb, ht⟩
    by_cases hc : key b ≤ key e
    · rw [if_pos hc]
      refine List.pairwise_cons.2 ⟨?_, h⟩
      intro x hx
      rcases List.mem_cons.1 hx with rfl | hxt
      · exact hc
      · exact le_trans (hb x hxt) hc
    · simp only [hc, if_false]
      refine List.pairwise_cons.2 ⟨?_, ih ht⟩
      intro x hx
      rcases (mem_insertDescBy key e x t).1 hx with rfl | hxt
      · exact le_of_lt (lt_of_not_le hc)
      · exact hb x hxt

/-- The descending sort is sorted descending by its key. -/
theorem pairwise_sortDescBy {α : Type} (key : α → ℕ) (l : List α) :
    (sortDescBy key l).Pairwise (fun a b => key b ≤ key a) := by
  induction l with
  | nil => exact List.Pairwise.nil
  | cons e t ih => exact pairwise_insertDescBy key e _ ih

/-- The descending sort preserves membership. -/
theorem mem_sortDescBy {α : Type} (key : α → ℕ) (a : α) (l : List α) :
    a ∈ sortDescBy key l ↔ a ∈ l := by
  induction l with
  | nil => exact Iff.rfl
  | cons e t ih =>
    unfold sortDescBy
    rw [mem_insertDescBy, ih, List.mem_cons]

/-- C9 (counterexample): on a dataset with a column and zero rows the
missing percentage is the pandas 0/0 result NaN (`none`), not 0. -/
theorem missing_pct_empty_cex :
    missingReport emptyRowsDs = [("title", 0, none)] ∧ (none : Option ℚ) ≠ some 0 := by
  exact ⟨rfl, by simp⟩

/-- C9 (amended): every missing-report entry carries the percentage
count / n * 100 when the dataset has n > 0 rows and the undefined
(NaN) percentage when n = 0, and the report is ordered by missing
count descending. -/
theorem missing_report_amended (df : Dataset) :
    (missingReport df).Pairwise (fun a b => b.2.1 ≤ a.2.1) ∧
    ∀ e ∈ missingReport df,
      e.2.2 = if nRows df = 0 then none
              else some ((e.2.1 : ℚ) / (nRows df : ℚ) * 100) := by
  constructor
  · exact pairwise_sortDescBy (fun e : MissEntry => e.2.1) _
  · intro e he
    unfold missingReport at he
    rw [mem_sortDescBy] at he
    obtain ⟨c, _, rfl⟩ := List.mem_map.1 he
    rfl

/-- C9 (witness): the amended theorem applied to the zero-row dataset
and its report entry. -/
theorem missing_report_amended_witness :
    ("title", 0, (none : Option ℚ)) ∈ missingReport emptyRowsDs ∧
    (("title", 0, (none : Option ℚ)) : MissEntry).2.2 =
      (if nRows emptyRowsDs = 0 then none
       else some (((("title", 0, (none : Option ℚ)) : MissEntry).2.1 : ℚ) /
         (nRows emptyRowsDs : ℚ) * 100)) := by
  have hm : ("title", 0, (none : Option ℚ)) ∈ missingReport emptyRowsDs := by
    rw [show missingReport emptyRowsDs = [("title", 0, none)] from rfl]
    exact List.mem_singleton.2 rfl
  exact ⟨hm, (missing_report_amended emptyRowsDs).2 _ hm⟩

/-- The exact sufficient statistics of the budget-revenue correlation
on the dummy dataset. -/
theorem dummy_budget_revenue_stats :
    corrStats (colNums dummyDataset "budget") (colNums dummyDataset "revenue") =
    ⟨5, 161436002111000000, 21117200000000000, 2683727400595834126⟩ := by
  show corrStats
      [some 237000000, some 200000000, some 220000000, some 55000000, some 160000000]
      [some 2787965087, some 2257844554, some 1518815515, some 1074219000, some 825532764] = _
  have hps : completePairs
      [some 237000000, some 200000000, some 220000000, some 55000000, some 160000000]
      [some 2787965087, some 2257844554, some 1518815515, some 1074219000, some 825532764] =
      [((237000000 : ℚ), (2787965087 : ℚ)), (200000000, 2257844554), (220000000, 1518815515),
       (55000000, 1074219000), (160000000, 825532764)] := by
    simp [completePairs]
  simp only [corrStats, hps, qmean]
  norm_num

/-- C4: on the built-in 5-row dummy dataset the run completes with
shape (5, 9), a missing count of 0 for every column, genre counts
Action:2, Drama:2, Sci-Fi:1 in exactly that order, insight rule 1
emitted, and a budget-revenue Pearson correlation strictly above 1/2
(its exact value is 161436002111000000 / sqrt(21117200000000000 *
2683727400595834126), about 0.678). -/
theorem dummy_end_to_end :
    (∃ r, runEDA dummyDataset = Except.ok r ∧
      r.shape = (5, 9) ∧
      (∀ e ∈ r.missing, e.2.1 = 0) ∧
      r.genreCounts = [(Value.str "Action", 2), (Value.str "Drama", 2), (Value.str "Sci-Fi", 1)] ∧
      1 ∈ r.insights) ∧
    (∃ c, corrEntry (colNums dummyDataset "budget") (colNums dummyDataset "revenue") =
      some c ∧ (1/2 : ℝ) < c) := by
  constructor
  · refine ⟨_, rfl, ?_, ?_, ?_, ?_⟩ <;> decide
  · refine ⟨(161436002111000000 : ℝ) /
      Real.sqrt ((21117200000000000 : ℝ) * 2683727400595834126), ?_, ?_⟩
    · unfold corrEntry
      rw [dummy_budget_revenue_stats]
      unfold corrOfStats
      norm_num
    · have hD : (0:ℝ) < (21117200000000000 : ℝ) * 2683727400595834126 := by norm_num
      have hsq : Real.sqrt ((21117200000000000 : ℝ) * 2683727400595834126) <
          2 * 161436002111000000 := by
        rw [Real.sqrt_lt' (by norm_num)]
        norm_num
      have h1 : (0:ℝ) < Real.sqrt ((21117200000000000 : ℝ) * 2683727400595834126) :=
        Real.sqrt_pos.2 hD
      rw [lt_div_iff₀ h1]
      calc (1/2 : ℝ) * Real.sqrt ((21117200000000000 : ℝ) * 2683727400595834126)
          < (1/2) * (2 * 161436002111000000) :=
            mul_lt_mul_of_pos_left hsq (by norm_num)
        _ = 161436002111000000 := by norm_num

theorem mem_insertAsc (x a : ℚ) (l : List ℚ) :
    a ∈ insertAsc x l ↔ a = x ∨ a ∈ l := by
  induction l with
  | nil => simp [insertAsc]
  | cons b t ih =>
    unfold insertAsc
    by_cases hc : x ≤ b
    · simp [hc]
    · simp only [hc, if_false, List.mem_cons, ih]
      tauto

theorem mem_sortQ (a : ℚ) (l : List ℚ) : a ∈ sortQ l ↔ a ∈ l := by
  induction l with
  | nil => exact Iff.rfl
  | cons b t ih =>
    unfold sortQ
    rw [mem_insertAsc, ih, List.mem_cons]

theorem length_insertAsc (x : ℚ) (l : List ℚ) :
    (insertAsc x l).length = l.length + 1 := by
  induction l with
  | nil => rfl
  | cons b t ih =>
    unfold insertAsc
    by_cases hc : x ≤ b
    · simp [hc]
    · simp [hc, ih]

theorem length_sortQ (l : List ℚ) : (sortQ l).length = l.length := by
  induction l with
  | nil => rfl
  | cons b t ih =>
    unfold sortQ
    rw [length_insertAsc, ih]
    rfl

theorem sorted_insertAsc (x : ℚ) (l : List ℚ) (h : List.Sorted (· ≤ ·) l) :
    List.Sorted (· ≤ ·) (insertAsc x l) := by
  induction l with
  | nil => simp [insertAsc]
  | cons b t ih =>
    unfold insertAsc
    rcases List.pairwise_cons.1 h with ⟨hb, ht⟩
    by_cases hc : x ≤ b
    · rw [if_pos hc]
      refine List.pairwise_cons.2 ⟨?_, h⟩
      intro y hy
      rcases List.mem_cons.1 hy with rfl | hyt
      · exact hc
      · exact le_trans hc (hb y hyt)
    · rw [if_neg hc]
      refine List.pairwise_cons.2 ⟨?_, ih ht⟩
      intro y hy
      rcases (mem_insertAsc x y t).1 hy with rfl | hyt
      · exact le_of_lt (lt_of_not_le hc)
      · exact hb y hyt

theorem sorted_sortQ (l : List ℚ) : List.Sorted (· ≤ ·) (sortQ l) := by
  induction l with
  | nil => exact List.Pairwise.nil
  | cons b t ih => exact sorted_insertAsc b _ ih

theorem getD_eq_default_of_le (l : List ℚ) (d : ℚ) (n : ℕ) (h : l.length ≤ n) :
    l.getD n d = d := by
  simp [List.getD_eq_getElem?_getD, List.getElem?_eq_none h]

theorem getD_mem_of_lt (l : List ℚ) (d : ℚ) (n : ℕ) (h : n < l.length) :
    l.getD n d ∈ l := by
  rw [List.getD_eq_getElem?_getD, List.getElem?_eq_getElem h]
  exact List.getElem_mem h

theorem getD_default_irrel (l : List ℚ) (d d' : ℚ) (n : ℕ) (h : n < l.length) :
    l.getD n d = l.getD n d' := by
  rw [List.getD_eq_getElem?_getD, List.getElem?_eq_getElem h,
    List.getD_eq_getElem?_getD, List.getElem?_eq_getElem h]
  rfl

theorem sorted_getD_mono (l : List ℚ) (h : List.Sorted (· ≤ ·) l) (d : ℚ)
    (i j : ℕ) (hij : i ≤ j) (hj : j < l.length) :
    l.getD i d ≤ l.getD j d := by
  have hi : i < l.length := lt_of_le_of_lt hij hj
  rw [List.getD_eq_getElem?_getD, List.getElem?_eq_getElem hi,
    List.getD_eq_getElem?_getD, List.getElem?_eq_getElem hj]
  exact List.Sorted.rel_get_of_le h hij

theorem getD_succ_ge (s : List ℚ) (hs : List.Sorted (· ≤ ·) s) (j : ℕ)
    (_hj : j < s.length) :
    s.getD j 0 ≤ s.getD (j + 1) (s.getD j 0) := by
  by_cases hj1 : j + 1 < s.length
  · rw [getD_default_irrel s _ 0 _ hj1]
    exact sorted_getD_mono s hs 0 j (j+1) (Nat.le_succ j) hj1
  · rw [getD_eq_default_of_le s _ _ (not_lt.1 hj1)]

theorem posIdx_bounds (n : ℕ) (_hn : 1 ≤ n) (pos : ℚ) (h0 : 0 ≤ pos)
    (hub : pos ≤ (n : ℚ) - 1) :
    (⌊pos⌋).toNat < n ∧ ((⌊pos⌋).toNat : ℚ) ≤ pos ∧ pos - ((⌊pos⌋).toNat : ℚ) < 1 := by
  have hfl0 : 0 ≤ ⌊pos⌋ := Int.floor_nonneg.2 h0
  have hcast : (((⌊pos⌋).toNat : ℕ) : ℚ) = ((⌊pos⌋ : ℤ) : ℚ) := by
    rw [← Int.toNat_of_nonneg hfl0]
    push_cast
    rfl
  have hle : ((⌊pos⌋ : ℤ) : ℚ) ≤ pos := Int.floor_le _
  have hfub : ⌊pos⌋ ≤ (n : ℤ) - 1 := by
    have hmono := Int.floor_mono hub
    have heq : ⌊((n : ℚ) - 1)⌋ = (n : ℤ) - 1 := by
      rw [show ((n : ℚ) - 1) = ((n : ℚ) - ((1 : ℤ) : ℚ)) by push_cast; ring]
      rw [Int.floor_sub_int, Int.floor_natCast]
    omega
  refine ⟨by omega, by rw [hcast]; exact hle, ?_⟩
  rw [hcast]
  have hlt : pos < (⌊pos⌋ : ℚ) + 1 := Int.lt_floor_add_one _
  linarith

theorem interpAt_between (s : List ℚ) (hs : List.Sorted (· ≤ ·) s) (hn : 1 ≤ s.length)
    (pos : ℚ) (h0 : 0 ≤ pos) (hub : pos ≤ (s.length : ℚ) - 1) :
    s.getD (⌊pos⌋).toNat 0 ≤ interpAt s pos ∧
    interpAt s pos ≤ s.getD ((⌊pos⌋).toNat + 1) (s.getD (⌊pos⌋).toNat 0) := by
  obtain ⟨hiLt, hiLe, hiFr⟩ := posIdx_bounds s.length hn pos h0 hub
  have hba : s.getD (⌊pos⌋).toNat 0 ≤
      s.getD ((⌊pos⌋).toNat + 1) (s.getD (⌊pos⌋).toNat 0) :=
    getD_succ_ge s hs _ hiLt
  unfold interpAt
  constructor
  · nlinarith [sub_nonneg.2 hiLe, sub_nonneg.2 hba]
  · nlinarith [sub_nonneg.2 hiLe, sub_nonneg.2 hba, le_of_lt hiFr]

theorem interpAt_mono (s : List ℚ) (hs : List.Sorted (· ≤ ·) s) (hn : 1 ≤ s.length)
    (pos pos' : ℚ) (h0 : 0 ≤ pos) (hle : pos ≤ pos') (hub : pos' ≤ (s.length : ℚ) - 1) :
    interpAt s pos ≤ interpAt s pos' := by
  obtain ⟨hiLt, hiLe, hiFr⟩ := posIdx_bounds s.length hn pos h0 (le_trans hle hub)
  obtain ⟨hiLt', hiLe', hiFr'⟩ := posIdx_bounds s.length hn pos' (le_trans h0 hle) hub
  have hii : (⌊pos⌋).toNat ≤ (⌊pos'⌋).toNat := Int.toNat_le_toNat (Int.floor_mono hle)
  rcases Nat.lt_or_ge (⌊pos⌋).toNat (⌊pos'⌋).toNat with hlt | hge
  · -- different segments: v(pos) ≤ s[i+1] ≤ s[i'] ≤ v(pos')
    have h1 : interpAt s pos ≤ s.getD ((⌊pos⌋).toNat + 1) (s.getD (⌊pos⌋).toNat 0) :=
      (interpAt_between s hs hn pos h0 (le_trans hle hub)).2
    have hseg : (⌊pos⌋).toNat + 1 < s.length := lt_of_le_of_lt hlt hiLt'
    have h2 : s.getD ((⌊pos⌋).toNat + 1) (s.getD (⌊pos⌋).toNat 0) ≤
        s.getD (⌊pos'⌋).toNat 0 := by
      rw [getD_default_irrel s _ 0 _ hseg]
      exact sorted_getD_mono s hs 0 _ _ hlt hiLt'
    have h3 : s.getD (⌊pos'⌋).toNat 0 ≤ interpAt s pos' :=
      (interpAt_between s hs hn pos' (le_trans h0 hle) hub).1
    linarith
  · -- same segment
    have heq : (⌊pos⌋).toNat = (⌊pos'⌋).toNat := le_antisymm hii hge
    have hba : s.getD (⌊pos⌋).toNat 0 ≤
        s.getD ((⌊pos⌋).toNat + 1) (s.getD (⌊pos⌋).toNat 0) :=
      getD_succ_ge s hs _ hiLt
    unfold interpAt
    rw [← heq]
    nlinarith [sub_nonneg.2 hba]



theorem percentileLin_mono (l : List ℚ) (hne : l ≠ []) (p p' : ℚ)
    (hp0 : 0 ≤ p) (hpp : p ≤ p') (hp1 : p' ≤ 1) :
    percentileLin l p ≤ percentileLin l p' := by
  have hlen : 1 ≤ (sortQ l).length := by
    rw [length_sortQ]
    exact List.length_pos.2 hne
  have h1 : (1 : ℚ) ≤ ((sortQ l).length : ℚ) := by exact_mod_cast hlen
  unfold percentileLin
  apply interpAt_mono _ (sorted_sortQ l) hlen
  · exact mul_nonneg hp0 (by linarith)
  · exact mul_le_mul_of_nonneg_right hpp (by linarith)
  · calc p' * (((sortQ l).length : ℚ) - 1)
        ≤ 1 * (((sortQ l).length : ℚ) - 1) := mul_le_mul_of_nonneg_right hp1 (by linarith)
      _ = ((sortQ l).length : ℚ) - 1 := one_mul _

theorem q1_le_q3 (l : List ℚ) (hne : l ≠ []) : q1Of l ≤ q3Of l :=
  percentileLin_mono l hne (1/4) (3/4) (by norm_num) (by norm_num) (by norm_num)

theorem iqr_nonneg (l : List ℚ) (hne : l ≠ []) : 0 ≤ iqrOf l :=
  sub_nonneg.2 (q1_le_q3 l hne)

theorem loFence_le_q1 (l : List ℚ) (hne : l ≠ []) : loFence l ≤ q1Of l := by
  unfold loFence
  nlinarith [iqr_nonneg l hne]

theorem q3_le_hiFence (l : List ℚ) (hne : l ≠ []) : q3Of l ≤ hiFence l := by
  unfold hiFence
  nlinarith [iqr_nonneg l hne]

theorem percentileLin_const (l : List ℚ) (c : ℚ) (hne : l ≠ [])
    (hall : ∀ v ∈ l, v = c) (p : ℚ) (hp0 : 0 ≤ p) (hp1 : p ≤ 1) :
    percentileLin l p = c := by
  have hs_all : ∀ v ∈ sortQ l, v = c := fun v hv => hall v ((mem_sortQ v l).1 hv)
  have hlen : 1 ≤ (sortQ l).length := by
    rw [length_sortQ]
    exact List.length_pos.2 hne
  have h1 : (1 : ℚ) ≤ ((sortQ l).length : ℚ) := by exact_mod_cast hlen
  have hpos : 0 ≤ p * (((sortQ l).length : ℚ) - 1) := mul_nonneg hp0 (by linarith)
  have hub : p * (((sortQ l).length : ℚ) - 1) ≤ ((sortQ l).length : ℚ) - 1 := by
    calc p * (((sortQ l).length : ℚ) - 1)
        ≤ 1 * (((sortQ l).length : ℚ) - 1) := mul_le_mul_of_nonneg_right hp1 (by linarith)
      _ = ((sortQ l).length : ℚ) - 1 := one_mul _
  obtain ⟨hiLt, _, _⟩ := posIdx_bounds (sortQ l).length hlen _ hpos hub
  unfold percentileLin interpAt
  have ha : (sortQ l).getD (⌊p * (((sortQ l).length : ℚ) - 1)⌋).toNat 0 = c :=
    hs_all _ (getD_mem_of_lt _ _ _ hiLt)
  have hb : (sortQ l).getD ((⌊p * (((sortQ l).length : ℚ) - 1)⌋).toNat + 1)
      ((sortQ l).getD (⌊p * (((sortQ l).length : ℚ) - 1)⌋).toNat 0) = c := by
    by_cases hv : (⌊p * (((sortQ l).length : ℚ) - 1)⌋).toNat + 1 < (sortQ l).length
    · exact hs_all _ (getD_mem_of_lt _ _ _ hv)
    · rw [getD_eq_default_of_le _ _ _ (not_lt.1 hv)]
      exact ha
  rw [ha] at hb
  rw [ha, hb]
  ring

theorem foldl_min_le_init (t : List ℚ) (v : ℚ) : t.foldl min v ≤ v := by
  induction t generalizing v with
  | nil => exact le_refl v
  | cons w t ih => exact le_trans (ih (min v w)) (min_le_left v w)

theorem foldl_min_le_mem (t : List ℚ) (v x : ℚ) (h : x ∈ t) : t.foldl min v ≤ x := by
  induction t generalizing v with
  | nil => cases h
  | cons w t ih =>
    rcases List.mem_cons.1 h with rfl | hxt
    · exact le_trans (foldl_min_le_init t (min v x)) (min_le_right v x)
    · exact ih (min v w) hxt

theorem le_foldl_min (t : List ℚ) (v c : ℚ) (hv : c ≤ v) (ht : ∀ x ∈ t, c ≤ x) :
    c ≤ t.foldl min v := by
  induction t generalizing v with
  | nil => exact hv
  | cons w t ih =>
    exact ih (min v w) (le_min hv (ht w (List.mem_cons_self w t)))
      (fun x hx => ht x (List.mem_cons_of_mem w hx))

theorem init_le_foldl_max (t : List ℚ) (v : ℚ) : v ≤ t.foldl max v := by
  induction t generalizing v with
  | nil => exact le_refl v
  | cons w t ih => exact le_trans (le_max_left v w) (ih (max v w))

theorem mem_le_foldl_max (t : List ℚ) (v x : ℚ) (h : x ∈ t) : x ≤ t.foldl max v := by
  induction t generalizing v with
  | nil => cases h
  | cons w t ih =>
    rcases List.mem_cons.1 h with rfl | hxt
    · exact le_trans (le_max_right v x) (init_le_foldl_max t (max v x))
    · exact ih (max v w) hxt

theorem foldl_max_le (t : List ℚ) (v c : ℚ) (hv : v ≤ c) (ht : ∀ x ∈ t, x ≤ c) :
    t.foldl max v ≤ c := by
  induction t generalizing v with
  | nil => exact hv
  | cons w t ih =>
    exact ih (max v w) (max_le hv (ht w (List.mem_cons_self w t)))
      (fun x hx => ht x (List.mem_cons_of_mem w hx))



theorem whiskLo_le_of_mem (l : List ℚ) (v : ℚ) (hv : v ∈ l) (hge : loFence l ≤ v) :
    whiskLo l ≤ v := by
  have hvf : v ∈ l.filter (fun v => decide (loFence l ≤ v)) :=
    List.mem_filter.2 ⟨hv, by simpa using hge⟩
  unfold whiskLo
  cases hf : l.filter (fun v => decide (loFence l ≤ v)) with
  | nil => rw [hf] at hvf; cases hvf
  | cons w t =>
    rw [hf] at hvf
    show t.foldl min w ≤ v
    rcases List.mem_cons.1 hvf with rfl | hvt
    · exact foldl_min_le_init t v
    · exact foldl_min_le_mem t w v hvt

theorem loFence_le_whiskLo (l : List ℚ) (hne : l ≠ []) : loFence l ≤ whiskLo l := by
  unfold whiskLo
  cases hf : l.filter (fun v => decide (loFence l ≤ v)) with
  | nil =>
    show loFence l ≤ q1Of l
    exact loFence_le_q1 l hne
  | cons w t =>
    show loFence l ≤ t.foldl min w
    have hw : loFence l ≤ w := by
      have : w ∈ l.filter (fun v => decide (loFence l ≤ v)) := by
        rw [hf]; exact List.mem_cons_self w t
      simpa using (List.mem_filter.1 this).2
    have ht : ∀ x ∈ t, loFence l ≤ x := by
      intro x hx
      have : x ∈ l.filter (fun v => decide (loFence l ≤ v)) := by
        rw [hf]; exact List.mem_cons_of_mem w hx
      simpa using (List.mem_filter.1 this).2
    exact le_foldl_min t w (loFence l) hw ht

theorem le_whiskHi_of_mem (l : List ℚ) (v : ℚ) (hv : v ∈ l) (hle : v ≤ hiFence l) :
    v ≤ whiskHi l := by
  have hvf : v ∈ l.filter (fun v => decide (v ≤ hiFence l)) :=
    List.mem_filter.2 ⟨hv, by simpa using hle⟩
  unfold whiskHi
  cases hf : l.filter (fun v => decide (v ≤ hiFence l)) with
  | nil => rw [hf] at hvf; cases hvf
  | cons w t =>
    rw [hf] at hvf
    show v ≤ t.foldl max w
    rcases List.mem_cons.1 hvf with rfl | hvt
    · exact init_le_foldl_max t v
    · exact mem_le_foldl_max t w v hvt

theorem whiskHi_le_hiFence (l : List ℚ) (hne : l ≠ []) : whiskHi l ≤ hiFence l := by
  unfold whiskHi
  cases hf : l.filter (fun v => decide (v ≤ hiFence l)) with
  | nil =>
    show q3Of l ≤ hiFence l
    exact q3_le_hiFence l hne
  | cons w t =>
    show t.foldl max w ≤ hiFence l
    have hw : w ≤ hiFence l := by
      have : w ∈ l.filter (fun v => decide (v ≤ hiFence l)) := by
        rw [hf]; exact List.mem_cons_self w t
      simpa using (List.mem_filter.1 this).2
    have ht : ∀ x ∈ t, x ≤ hiFence l := by
      intro x hx
      have : x ∈ l.filter (fun v => decide (v ≤ hiFence l)) := by
        rw [hf]; exact List.mem_cons_of_mem w hx
      simpa using (List.mem_filter.1 this).2
    exact foldl_max_le t w (hiFence l) hw ht

theorem isFlier_iff (l : List ℚ) (hne : l ≠ []) (v : ℚ) (hv : v ∈ l) :
    isFlier l v = true ↔ (v < loFence l ∨ hiFence l < v) := by
  unfold isFlier
  rw [decide_eq_true_eq]
  constructor
  · rintro (h | h)
    · left
      by_contra hge
      push_neg at hge
      exact absurd h (not_lt.2 (whiskLo_le_of_mem l v hv hge))
    · right
      by_contra hle
      push_neg at hle
      exact absurd h (not_lt.2 (le_whiskHi_of_mem l v hv hle))
  · rintro (h | h)
    · exact Or.inl (lt_of_lt_of_le h (loFence_le_whiskLo l hne))
    · exact Or.inr (lt_of_le_of_lt (whiskHi_le_hiFence l hne) h)

theorem mem_outlierIndices (l : List ℚ) (i : ℕ) (hi : i < l.length) :
    i ∈ outlierIndices l ↔ isFlier l (l.getD i 0) = true := by
  unfold outlierIndices
  rw [List.mem_filter, List.mem_range]
  simp [hi]



/-- C5: the box-plot statistics flag a row index as an outlier iff its
value lies strictly outside [Q1 - 1.5 IQR, Q3 + 1.5 IQR], where the
quartiles are the linear-interpolation percentiles at positions
p * (n - 1); and a zero-variance column (all values equal to a common
value c) has IQR = 0, both fences equal to c, and flags exactly the
rows whose value differs from c. -/
theorem outlier_fence_spec (l : List ℚ) (c : ℚ) (hne : l ≠ []) :
    (∀ i, i < l.length →
      (i ∈ outlierIndices l ↔ (l.getD i 0 < loFence l ∨ hiFence l < l.getD i 0))) ∧
    ((∀ v ∈ l, v = c) →
      iqrOf l = 0 ∧ loFence l = c ∧ hiFence l = c ∧
      ∀ i, i < l.length → (i ∈ outlierIndices l ↔ l.getD i 0 ≠ c)) := by
  have hmain : ∀ i, i < l.length →
      (i ∈ outlierIndices l ↔ (l.getD i 0 < loFence l ∨ hiFence l < l.getD i 0)) := by
    intro i hi
    rw [mem_outlierIndices l i hi]
    exact isFlier_iff l hne _ (getD_mem_of_lt l 0 i hi)
  refine ⟨hmain, fun hall => ?_⟩
  have hq1 : q1Of l = c := percentileLin_const l c hne hall (1/4) (by norm_num) (by norm_num)
  have hq3 : q3Of l = c := percentileLin_const l c hne hall (3/4) (by norm_num) (by norm_num)
  have hiqr : iqrOf l = 0 := by unfold iqrOf; rw [hq1, hq3]; ring
  have hlo : loFence l = c := by unfold loFence; rw [hq1, hiqr]; ring
  have hhi : hiFence l = c := by unfold hiFence; rw [hq3, hiqr]; ring
  refine ⟨hiqr, hlo, hhi, fun i hi => ?_⟩
  rw [hmain i hi, hlo, hhi]
  have hv : l.getD i 0 = c := hall _ (getD_mem_of_lt l 0 i hi)
  rw [hv]
  simp

/-- C5 (witness): the fencing theorem applied to a concrete constant
column of four values. -/
theorem outlier_fence_spec_witness :
    (0 ∈ outlierIndices [(3:ℚ), 3, 3, 3] ↔
      (([(3:ℚ), 3, 3, 3].getD 0 0 < loFence [(3:ℚ), 3, 3, 3]) ∨
        hiFence [(3:ℚ), 3, 3, 3] < [(3:ℚ), 3, 3, 3].getD 0 0)) ∧
    iqrOf [(3:ℚ), 3, 3, 3] = 0 ∧
    (0 ∈ outlierIndices [(3:ℚ), 3, 3, 3] ↔ [(3:ℚ), 3, 3, 3].getD 0 0 ≠ 3) := by
  have hall : ∀ v ∈ [(3:ℚ), 3, 3, 3], v = 3 := by
    intro v hv
    simp at hv
    exact hv
  have T := outlier_fence_spec [(3:ℚ), 3, 3, 3] 3 (by simp)
  exact ⟨T.1 0 (by norm_num), (T.2 hall).1, (T.2 hall).2.2.2 0 (by norm_num)⟩

theorem minOf_le_mem (vs : List ℚ) (v : ℚ) (hv : v ∈ vs) : minOf vs ≤ v := by
  cases vs with
  | nil => cases hv
  | cons w t =>
    show minQ w t ≤ v
    rcases List.mem_cons.1 hv with rfl | hvt
    · exact foldl_min_le_init t v
    · exact foldl_min_le_mem t w v hvt

theorem mem_le_maxOf (vs : List ℚ) (v : ℚ) (hv : v ∈ vs) : v ≤ maxOf vs := by
  cases vs with
  | nil => cases hv
  | cons w t =>
    show v ≤ maxQ w t
    rcases List.mem_cons.1 hv with rfl | hvt
    · exact init_le_foldl_max t v
    · exact mem_le_foldl_max t w v hvt

theorem minOf_le_maxOf (vs : List ℚ) (hne : vs ≠ []) : minOf vs ≤ maxOf vs := by
  cases vs with
  | nil => exact absurd rfl hne
  | cons w t =>
    exact le_trans (minOf_le_mem (w :: t) w (List.mem_cons_self w t))
      (mem_le_maxOf (w :: t) w (List.mem_cons_self w t))

theorem histBounds_eq_of_lt (vs : List ℚ) (hne : vs ≠ []) (h : minOf vs < maxOf vs) :
    histBounds vs = (minOf vs, maxOf vs) := by
  cases vs with
  | nil => exact absurd rfl hne
  | cons w t =>
    show (if minQ w t = maxQ w t then _ else _) = _
    rw [if_neg (ne_of_lt (show minQ w t < maxQ w t from h))]
    rfl

theorem histBounds_expand (vs : List ℚ) (hne : vs ≠ []) (h : minOf vs = maxOf vs) :
    histBounds vs = (minOf vs - 1/2, maxOf vs + 1/2) := by
  cases vs with
  | nil => exact absurd rfl hne
  | cons w t =>
    show (if minQ w t = maxQ w t then _ else _) = _
    rw [if_pos (show minQ w t = maxQ w t from h)]
    rfl

theorem all_eq_of_min_eq_max (vs : List ℚ) (h : minOf vs = maxOf vs) :
    ∀ v ∈ vs, v = minOf vs := by
  intro v hv
  exact le_antisymm (h ▸ mem_le_maxOf vs v hv) (minOf_le_mem vs v hv)

theorem histBounds_contains (vs : List ℚ) (v : ℚ) (hv : v ∈ vs) :
    (histBounds vs).1 ≤ v ∧ v ≤ (histBounds vs).2 := by
  have hne : vs ≠ [] := by rintro rfl; cases hv
  have h1 := minOf_le_mem vs v hv
  have h2 := mem_le_maxOf vs v hv
  by_cases heq : minOf vs = maxOf vs
  · rw [histBounds_expand vs hne heq]
    constructor <;> simp <;> linarith
  · rw [histBounds_eq_of_lt vs hne (lt_of_le_of_ne (minOf_le_maxOf vs hne) heq)]
    exact ⟨h1, h2⟩

theorem histBounds_lt (vs : List ℚ) (hne : vs ≠ []) :
    (histBounds vs).1 < (histBounds vs).2 := by
  by_cases heq : minOf vs = maxOf vs
  · rw [histBounds_expand vs hne heq]
    simp
    linarith [heq.le]
  · rw [histBounds_eq_of_lt vs hne (lt_of_le_of_ne (minOf_le_maxOf vs hne) heq)]
    exact lt_of_le_of_ne (minOf_le_maxOf vs hne) heq



theorem edges_getD (lo hi : ℚ) (k j : ℕ) (hj : j < k + 1) :
    (histEdges lo hi k).getD j 0 = lo + (hi - lo) * (j : ℚ) / (k : ℚ) := by
  unfold histEdges
  rw [List.getD_eq_getElem?_getD, List.getElem?_map, List.getElem?_range hj]
  rfl

theorem binOf_lt (lo hi : ℚ) (k : ℕ) (hk : 0 < k) (v : ℚ) : binOf lo hi k v < k := by
  unfold binOf
  have h := min_le_left (k - 1) ((⌊(v - lo) * (k : ℚ) / (hi - lo)⌋).toNat)
  omega

theorem binOf_max (lo hi : ℚ) (k : ℕ) (hlt : lo < hi) :
    binOf lo hi k hi = k - 1 := by
  unfold binOf
  have hw : hi - lo ≠ 0 := ne_of_gt (sub_pos.2 hlt)
  have ht : (hi - lo) * (k : ℚ) / (hi - lo) = (k : ℚ) := by
    rw [mul_comm, mul_div_assoc, div_self hw, mul_one]
  rw [ht, Int.floor_natCast, Int.toNat_natCast]
  exact min_eq_left (Nat.sub_le k 1)



theorem binOf_interval (lo hi : ℚ) (hlt : lo < hi) (k : ℕ) (hk : 0 < k)
    (v : ℚ) (hv0 : lo ≤ v) (hv1 : v ≤ hi) :
    (histEdges lo hi k).getD (binOf lo hi k v) 0 ≤ v ∧
    v ≤ (histEdges lo hi k).getD (binOf lo hi k v + 1) 0 ∧
    (binOf lo hi k v < k - 1 → v < (histEdges lo hi k).getD (binOf lo hi k v + 1) 0) := by
  have hkq : (0 : ℚ) < (k : ℚ) := by exact_mod_cast hk
  have hwid : (0 : ℚ) < hi - lo := sub_pos.2 hlt
  set t : ℚ := (v - lo) * (k : ℚ) / (hi - lo) with ht
  have ht0 : 0 ≤ t := div_nonneg (mul_nonneg (sub_nonneg.2 hv0) hkq.le) hwid.le
  have hflnn : 0 ≤ ⌊t⌋ := Int.floor_nonneg.2 ht0
  have hcast : ((⌊t⌋.toNat : ℕ) : ℚ) = ((⌊t⌋ : ℤ) : ℚ) := by
    rw [← Int.toNat_of_nonneg hflnn]
    push_cast
    rfl
  have hbin : binOf lo hi k v = min (k - 1) ⌊t⌋.toNat := rfl
  have hb_lt : binOf lo hi k v < k := binOf_lt lo hi k hk v
  have hbq : ((binOf lo hi k v : ℕ) : ℚ) ≤ t := by
    calc ((binOf lo hi k v : ℕ) : ℚ) ≤ ((⌊t⌋.toNat : ℕ) : ℚ) := by
          exact_mod_cast (hbin ▸ min_le_right (k - 1) ⌊t⌋.toNat)
      _ = (⌊t⌋ : ℚ) := hcast
      _ ≤ t := Int.floor_le t
  have htb : t * (hi - lo) = (v - lo) * (k : ℚ) := by
    rw [ht, div_mul_cancel₀]
    exact ne_of_gt hwid
  have he0 : (histEdges lo hi k).getD (binOf lo hi k v) 0 =
      lo + (hi - lo) * ((binOf lo hi k v : ℕ) : ℚ) / (k : ℚ) :=
    edges_getD lo hi k _ (by omega)
  have he1 : (histEdges lo hi k).getD (binOf lo hi k v + 1) 0 =
      lo + (hi - lo) * (((binOf lo hi k v : ℕ) : ℚ) + 1) / (k : ℚ) := by
    rw [edges_getD lo hi k _ (by omega)]
    push_cast
    ring
  have hlow : (histEdges lo hi k).getD (binOf lo hi k v) 0 ≤ v := by
    have h1 : ((binOf lo hi k v : ℕ) : ℚ) * (hi - lo) ≤ (v - lo) * (k : ℚ) :=
      htb ▸ mul_le_mul_of_nonneg_right hbq hwid.le
    have h2 : (hi - lo) * ((binOf lo hi k v : ℕ) : ℚ) / (k : ℚ) ≤ v - lo := by
      rw [div_le_iff₀ hkq]
      nlinarith [h1]
    rw [he0]
    linarith
  refine ⟨hlow, ?_, ?_⟩
  · -- v ≤ upper edge, by cases on clamping
    by_cases hcl : ⌊t⌋.toNat ≤ k - 1
    · have hbeq : binOf lo hi k v = ⌊t⌋.toNat := hbin ▸ min_eq_right hcl
      have hstrict : t < ((binOf lo hi k v : ℕ) : ℚ) + 1 := by
        rw [hbeq, hcast]
        exact Int.lt_floor_add_one t
      have h3 : (v - lo) * (k : ℚ) < (hi - lo) * (((binOf lo hi k v : ℕ) : ℚ) + 1) := by
        nlinarith [mul_lt_mul_of_pos_right hstrict hwid]
      have h4 : v - lo < (hi - lo) * (((binOf lo hi k v : ℕ) : ℚ) + 1) / (k : ℚ) := by
        rw [lt_div_iff₀ hkq]
        nlinarith [h3]
      rw [he1]
      linarith
    · have hbeq : binOf lo hi k v = k - 1 := hbin ▸ min_eq_left (le_of_lt (not_le.1 hcl))
      have hksucc : binOf lo hi k v + 1 = k := by omega
      rw [he1, hbeq]
      have hkc : (((k - 1 : ℕ) : ℚ) + 1) = (k : ℚ) := by
        have : (1 : ℕ) ≤ k := hk
        push_cast [this]
        ring
      rw [hkc, mul_div_assoc, div_self (ne_of_gt hkq), mul_one]
      linarith
  · -- strict upper bound when not in the last bin
    intro hblt
    have hcl : ⌊t⌋.toNat ≤ k - 1 := by
      by_contra hcl
      have hbeq : binOf lo hi k v = k - 1 := hbin ▸ min_eq_left (le_of_lt (not_le.1 hcl))
      omega
    have hbeq : binOf lo hi k v = ⌊t⌋.toNat := hbin ▸ min_eq_right hcl
    have hstrict : t < ((binOf lo hi k v : ℕ) : ℚ) + 1 := by
      rw [hbeq, hcast]
      exact Int.lt_floor_add_one t
    have h3 : (v - lo) * (k : ℚ) < (hi - lo) * (((binOf lo hi k v : ℕ) : ℚ) + 1) := by
      nlinarith [mul_lt_mul_of_pos_right hstrict hwid]
    have h4 : v - lo < (hi - lo) * (((binOf lo hi k v : ℕ) : ℚ) + 1) / (k : ℚ) := by
      rw [lt_div_iff₀ hkq]
      nlinarith [h3]
    rw [he1]
    linarith



theorem sum_map_add (l : List ℕ) (g h : ℕ → ℕ) :
    (l.map (fun i => g i + h i)).sum = (l.map g).sum + (l.map h).sum := by
  induction l with
  | nil => rfl
  | cons x t ih => simp [ih]; omega

theorem sum_indicator (k j : ℕ) :
    ((List.range k).map (fun i => if j = i then 1 else 0)).sum = if j < k then 1 else 0 := by
  induction k with
  | zero => rfl
  | succ k ih =>
    rw [List.range_succ, List.map_append, List.sum_append, ih]
    simp only [List.map_cons, List.map_nil, List.sum_cons, List.sum_nil]
    split_ifs <;> omega

theorem sum_bin_filter (f : ℚ → ℕ) (k : ℕ) (l : List ℚ) (hf : ∀ v ∈ l, f v < k) :
    ((List.range k).map (fun i => (l.filter (fun v => f v == i)).length)).sum = l.length := by
  induction l with
  | nil => simp
  | cons x t ih =>
    have hfx : f x < k := hf x (List.mem_cons_self x t)
    have hstep : ∀ i : ℕ, ((x :: t).filter (fun v => f v == i)).length =
        (if f x = i then 1 else 0) + (t.filter (fun v => f v == i)).length := by
      intro i
      rw [List.filter_cons]
      by_cases hxi : f x = i
      · simp [hxi]
        omega
      · simp [hxi]
    rw [List.map_congr_left (fun i _ => hstep i), sum_map_add, sum_indicator, if_pos hfx,
      ih (fun v hv => hf v (List.mem_cons_of_mem x hv))]
    simp
    omega

theorem histCounts_sum (vs : List ℚ) (k : ℕ) (hk : 0 < k) :
    (histCounts vs k).sum = vs.length :=
  sum_bin_filter (binOf (histBounds vs).1 (histBounds vs).2 k) k vs
    (fun v _ => binOf_lt _ _ k hk v)

theorem histCounts_length (vs : List ℚ) (k : ℕ) : (histCounts vs k).length = k := by
  unfold histCounts
  rw [List.length_map, List.length_range]



/-- C8 (amended): for a positive bin count k the histogram's counts
sum to exactly the column's non-missing value count and there are
exactly k bins; when min < max the range is [min, max], the maximum
falls in the last bin, and every value v lies in the half-open bin it
is assigned to (closed on the right only for the last bin); the bins
have equal width (hi - lo)/k; and when min = max numpy expands the
range to [min - 1/2, max + 1/2] (all values, being equal, then share
one interior bin) rather than producing a single degenerate bin. -/
theorem histogram_amended (k : ℕ) (hk : 0 < k) :
    (∀ cells : List Cell, (histogram cells k).sum = (presentNums cells).length) ∧
    (∀ vs : List ℚ, (histCounts vs k).length = k) ∧
    (∀ vs : List ℚ, vs ≠ [] → minOf vs < maxOf vs →
      histBounds vs = (minOf vs, maxOf vs) ∧
      binOf (minOf vs) (maxOf vs) k (maxOf vs) = k - 1) ∧
    (∀ vs : List ℚ, ∀ v ∈ vs,
      (histEdges (histBounds vs).1 (histBounds vs).2 k).getD
          (binOf (histBounds vs).1 (histBounds vs).2 k v) 0 ≤ v ∧
      v ≤ (histEdges (histBounds vs).1 (histBounds vs).2 k).getD
          (binOf (histBounds vs).1 (histBounds vs).2 k v + 1) 0 ∧
      (binOf (histBounds vs).1 (histBounds vs).2 k v < k - 1 →
        v < (histEdges (histBounds vs).1 (histBounds vs).2 k).getD
            (binOf (histBounds vs).1 (histBounds vs).2 k v + 1) 0)) ∧
    (∀ lo hi : ℚ, ∀ j, j < k →
      (histEdges lo hi k).getD (j + 1) 0 - (histEdges lo hi k).getD j 0 =
        (hi - lo) / (k : ℚ)) ∧
    (∀ vs : List ℚ, vs ≠ [] → minOf vs = maxOf vs →
      histBounds vs = (minOf vs - 1/2, maxOf vs + 1/2) ∧ ∀ v ∈ vs, v = minOf vs) := by
  refine ⟨fun cells => histCounts_sum _ k hk,
    fun vs => histCounts_length vs k,
    fun vs hne hlt => ⟨histBounds_eq_of_lt vs hne hlt, binOf_max _ _ k hlt⟩,
    fun vs v hv => ?_,
    fun lo hi j hj => ?_,
    fun vs hne heq => ⟨histBounds_expand vs hne heq, all_eq_of_min_eq_max vs heq⟩⟩
  · have hne : vs ≠ [] := by rintro rfl; cases hv
    obtain ⟨h1, h2⟩ := histBounds_contains vs v hv
    exact binOf_interval _ _ (histBounds_lt vs hne) k hk v h1 h2
  · rw [edges_getD lo hi k (j + 1) (by omega), edges_getD lo hi k j (by omega)]
    push_cast
    ring

/-- C8 (witness): the amended theorem applied with the script's bin
count 10 to a concrete three-value column. -/
theorem histogram_amended_witness :
    (histogram [numQ 1, numQ 2, numQ 4] 10).sum =
      (presentNums [numQ 1, numQ 2, numQ 4]).length ∧
    minOf [(1:ℚ), 2, 4] < maxOf [(1:ℚ), 2, 4] ∧
    binOf (minOf [(1:ℚ), 2, 4]) (maxOf [(1:ℚ), 2, 4]) 10 (maxOf [(1:ℚ), 2, 4]) = 9 := by
  have T := histogram_amended 10 (by norm_num)
  have hlt : minOf [(1:ℚ), 2, 4] < maxOf [(1:ℚ), 2, 4] := by
    norm_num [minOf, maxOf, minQ, maxQ]
  exact ⟨T.1 _, hlt, (T.2.2.1 [(1:ℚ), 2, 4] (by simp) hlt).2⟩

/-- C8 (counterexample): a constant column does not produce one
degenerate bin over [min, max]: numpy expands the range of [7, 7, 7]
to [6.5, 7.5] and produces 10 bins, the sixth holding all values. -/
theorem histogram_degenerate_cex :
    histBounds [(7:ℚ), 7, 7] = (13/2, 15/2) ∧
    histCounts [(7:ℚ), 7, 7] 10 = [0, 0, 0, 0, 0, 3, 0, 0, 0, 0] ∧
    (histCounts [(7:ℚ), 7, 7] 10).length ≠ 1 := by
  have hb : histBounds [(7:ℚ), 7, 7] = (13/2, 15/2) := by
    norm_num [histBounds, minQ, maxQ]
  have hbin : binOf (13/2) (15/2) 10 7 = 5 := by
    unfold binOf
    norm_num
    rfl
  refine ⟨hb, ?_, ?_⟩
  · unfold histCounts
    rw [hb]
    simp only [List.filter_cons, List.filter_nil, hbin]
    decide
  · rw [histCounts_length]
    norm_num

/-- C10: the step-4 histogram series are, in script order, the raw
runtime values, the raw vote_average values, and the log1p-transformed
budget values log(1 + b); on the dummy dataset the transformed budget
series differs from the raw one, so the transformation is not a
no-op. -/
theorem budget_hist_log_transform :
    (∀ df : Dataset, step4HistInputs df =
      [ ("runtime", (presentNums ((getCol df "runtime").getD [])).map (fun q : ℚ => (q : ℝ))),
        ("vote_average",
          (presentNums ((getCol df "vote_average").getD [])).map (fun q : ℚ => (q : ℝ))),
        ("budget",
          (presentNums ((getCol df "budget").getD [])).map
            (fun q : ℚ => Real.log (1 + (q : ℝ)))) ]) ∧
    (presentNums ((getCol dummyDataset "budget").getD [])).map log1p ≠
      (presentNums ((getCol dummyDataset "budget").getD [])).map (fun q : ℚ => (q : ℝ)) := by
  constructor
  · intro df
    rfl
  · intro h
    have hbud : presentNums ((getCol dummyDataset "budget").getD []) =
        [237000000, 200000000, 220000000, 55000000, 160000000] := rfl
    rw [hbud] at h
    simp only [List.map_cons, List.map_nil, List.cons.injEq] at h
    have hhead : Real.log (1 + ((237000000 : ℚ) : ℝ)) = ((237000000 : ℚ) : ℝ) := h.1
    have hcast : (1 : ℝ) + ((237000000 : ℚ) : ℝ) = (237000001 : ℝ) := by
      push_cast
      norm_num
    have hlog : Real.log ((237000001 : ℝ)) < 237000001 - 1 :=
      Real.log_lt_sub_one_of_pos (by norm_num) (by norm_num)
    rw [hcast] at hhead
    have : ((237000000 : ℚ) : ℝ) = (237000000 : ℝ) := by push_cast; norm_num
    rw [this] at hhead
    norm_num [hhead] at hlog

end EDA
